import Mathlib

/-!
Shallow embedding of the creachadair/cache repository: the string-keyed LRU
engine (lru/lru.go), the count-bounded LFU engine (lfu/lfu.go) and the
size-accounted LFU engine (the unnamed lfu source file), together with the
value-size contract (value.go).  Go panics are modelled as `none` results;
the optional eviction callback is modelled by a log of the values passed
to it.
-/

namespace CacheSpec

/-- A cached value: an opaque payload together with the integer its
Size() method reports (value.Interface in value.go). -/
structure Value where
  data : String
  sz : Int
deriving DecidableEq

/-- value.Size(): the nominal size the value reports. -/
def Value.size (v : Value) : Int := v.sz

/-- value.String convenience wrapper: size is the byte length of the string. -/
def VStr (s : String) : Value := ⟨s, (s.length : Int)⟩

/-- Go map read: first binding of key k in an association list. -/
def lookupKey (k : String) : List (String × α) → Option α
  | [] => none
  | (q, v) :: rest => if q = k then some v else lookupKey k rest

/-- Go map delete: remove the binding of key k, if present. -/
def eraseKey (k : String) : List (String × α) → List (String × α)
  | [] => []
  | (q, v) :: rest => if q = k then rest else (q, v) :: eraseKey k rest

/-- Go map assignment: update the binding of key k, or append it. -/
def setKey (k : String) (v : α) : List (String × α) → List (String × α)
  | [] => [(k, v)]
  | (q, w) :: rest => if q = k then (k, v) :: rest else (q, w) :: setKey k v rest

/-- The keys of an association list. -/
def keysOf (l : List (String × α)) : List String := l.map Prod.fst

/-- lru.Cache: capacity, resident size, the recency ring (most recently
used first, i.e. the sentinel's next end is the list head and the
sentinel's prev end is the last element), and the eviction-callback log. -/
structure LRU where
  cap : Int
  size : Int
  ring : List (String × Value)
  evLog : List Value
deriving DecidableEq

/-- lru.New: an empty cache with the given capacity. -/
def LRU.new (capacity : Int) : LRU :=
  { cap := capacity, size := 0, ring := [], evLog := [] }

/-- The entry node lru.Cache.evict returns: its value field has already
been overwritten with the argument passed to evict (nil modelled as none). -/
structure LRUEntry where
  id : String
  value : Option Value
deriving DecidableEq

/-- lru.Cache.evict(id, value): if id is resident, unlink its entry,
notify the callback of the old value, remove id from the index, subtract
the old value's size, set the entry's value field to the argument and
return the entry; otherwise return nil. -/
def LRU.evict (c : LRU) (id : String) (value : Option Value) : Option LRUEntry × LRU :=
  match lookupKey id c.ring with
  | some old =>
      (some { id := id, value := value },
       { c with ring := eraseKey id c.ring,
                evLog := c.evLog ++ [old],
                size := c.size - old.size })
  | none => (none, c)

theorem lookupKey_isSome_of_getLast {l : List (String × α)} {k : String} {v : α}
    (h : l.getLast? = some (k, v)) : (lookupKey k l).isSome := by
  induction l with
  | nil => simp at h
  | cons hd tl ih =>
      cases tl with
      | nil =>
          simp [List.getLast?] at h
          subst h
          simp [lookupKey]
      | cons hd2 tl2 =>
          rw [List.getLast?_cons_cons] at h
          by_cases hk : hd.1 = k
          · simp [lookupKey, hk]
          · simpa [lookupKey, hk] using ih h

theorem length_eraseKey_lt {l : List (String × α)} {k : String}
    (h : (lookupKey k l).isSome) : (eraseKey k l).length < l.length := by
  induction l with
  | nil => simp [lookupKey] at h
  | cons hd tl ih =>
      by_cases hk : hd.1 = k
      · simp [eraseKey, hk]
      · rw [lookupKey, if_neg hk] at h
        simp only [eraseKey, hk, if_neg, List.length_cons]
        exact Nat.succ_lt_succ (ih h)

/-- The eviction loop inside lru.Cache.Put: while there is no room, take
the victim adjacent to the sentinel's prev end (the last ring entry) and
evict it; an empty ring there is the "invalid ring structure" panic. -/
def LRU.makeRoom (c : LRU) (vsize : Int) : Option LRU :=
  if c.size + vsize > c.cap then
    match hvic : c.ring.getLast? with
    | none => none
    | some (vid, _) => LRU.makeRoom ((c.evict vid none).2) vsize
  else some c
termination_by c.ring.length
decreasing_by
  have hs := lookupKey_isSome_of_getLast hvic
  simp only [LRU.evict]
  cases hl : lookupKey vid c.ring with
  | none => rw [hl] at hs; simp at hs
  | some old => simpa using length_eraseKey_lt hs

/-- lru.Cache.Put: no-op when the cap is not positive; panic on negative
size; silent rejection when the size exceeds the capacity; otherwise evict
any existing entry for id, make room by evicting least-recently-used
entries, and push the entry at the most-recently-used position. -/
def LRU.put (c : LRU) (id : String) (v : Value) : Option LRU :=
  if c.cap > 0 then
    let vsize := v.size
    if vsize < 0 then none
    else if vsize > c.cap then some c
    else
      let c1 := (c.evict id (some v)).2
      match c1.makeRoom vsize with
      | none => none
      | some c2 =>
          some { c2 with ring := (id, v) :: c2.ring, size := c2.size + vsize }
  else some c

/-- lru.Cache.Drop: evict the entry for id and return its value field --
which evict has just overwritten with the nil argument. -/
def LRU.drop (c : LRU) (id : String) : Option Value × LRU :=
  match c.evict id none with
  | (some e, c1) => (e.value, c1)
  | (none, c1) => (none, c1)

/-- lru.Cache.Get: on a hit, move the entry to the most-recently-used
position unless it is already the sentinel's immediate successor, and
return its value; on a miss return nil. -/
def LRU.get (c : LRU) (id : String) : Option Value × LRU :=
  match lookupKey id c.ring with
  | some v =>
      (some v,
       if c.ring.head?.map Prod.fst = some id then c
       else { c with ring := (id, v) :: eraseKey id c.ring })
  | none => (none, c)

/-- The loop body of lru.Cache.Reset: evict each resident id. -/
def LRU.resetLoop : LRU → List String → LRU
  | c, [] => c
  | c, id :: rest => LRU.resetLoop ((c.evict id none).2) rest

/-- lru.Cache.Reset: evict every resident id, leaving the cache empty. -/
def LRU.reset (c : LRU) : LRU := c.resetLoop (keysOf c.ring)

/-- lru.Cache.Size with the nil-receiver guard: a nil cache reports 0. -/
def LRU.sizeAPI : Option LRU → Int
  | none => 0
  | some c => c.size

/-- lru.Cache.Cap with the nil-receiver guard: a nil cache reports 0. -/
def LRU.capAPI : Option LRU → Int
  | none => 0
  | some c => c.cap

/-- lru.Cache.Put with the nil-receiver guard. -/
def LRU.putAPI : Option LRU → String → Value → Option (Option LRU)
  | none, _, _ => some none
  | some c, id, v => (c.put id v).map some

/-- lru.Cache.Get with the nil-receiver guard. -/
def LRU.getAPI : Option LRU → String → Option Value × Option LRU
  | none, _ => (none, none)
  | some c, id => ((c.get id).1, some (c.get id).2)

/-- lru.Cache.Drop with the nil-receiver guard. -/
def LRU.dropAPI : Option LRU → String → Option Value × Option LRU
  | none, _ => (none, none)
  | some c, id => ((c.drop id).1, some (c.drop id).2)

/-- lru.Cache.Reset with the nil-receiver guard. -/
def LRU.resetAPI : Option LRU → Option LRU
  | none => none
  | some c => some c.reset

/-- lfu entry: a node of the min-heap ordered by frequency of use. -/
structure FEntry where
  id : String
  value : Value
  uses : Int
deriving DecidableEq

/-- heap[i].uses < heap[j].uses, false when an index is out of range. -/
def usesLt (h : List FEntry) (i j : Nat) : Bool :=
  match h.get? i, h.get? j with
  | some a, some b => a.uses < b.uses
  | _, _ => false

/-- The child index lfu.Cache.fix works on: mc = 2*pos, replaced by
rc = mc+1 when rc is in range and heap[rc].uses < heap[mc].uses. -/
def minChild (h : List FEntry) (pos : Nat) : Nat :=
  if 2 * pos + 1 < h.length ∧ usesLt h (2 * pos + 1) (2 * pos) then 2 * pos + 1
  else 2 * pos

theorem minChild_spec {h : List FEntry} {pos : Nat} (hbig : ¬ h.length ≤ 2 * pos) :
    minChild h pos < h.length ∧ 2 * pos ≤ minChild h pos ∧ minChild h pos ≤ 2 * pos + 1 := by
  unfold minChild
  split
  · next hc => exact ⟨hc.1, by omega, by omega⟩
  · exact ⟨by omega, by omega, by omega⟩

theorem pos_lt_minChild {h : List FEntry} {pos : Nat} {cur minE : FEntry}
    (hbig : ¬ h.length ≤ 2 * pos) (hcur : h.get? pos = some cur)
    (hmin : h.get? (minChild h pos) = some minE) (hle : ¬ cur.uses ≤ minE.uses) :
    pos < minChild h pos := by
  rcases @minChild_spec h pos hbig with ⟨hlt, hlo, hhi⟩
  by_cases hz : pos = 0
  · subst hz
    have hm : minChild h 0 = 0 ∨ minChild h 0 = 1 := by omega
    rcases hm with hm | hm
    · exfalso
      rw [hm] at hmin
      rw [hcur] at hmin
      injection hmin with he
      exact hle (he ▸ le_refl cur.uses)
    · omega
  · omega

/-- lfu.Cache.fix: sift the entry at pos toward the leaves, swapping with
the smaller child while that child has strictly smaller uses, updating the
residency index at every swap. -/
def fixLoop (h : List FEntry) (res : List (String × Nat)) (pos : Nat) :
    Option (List FEntry × List (String × Nat)) :=
  if hbig : h.length ≤ 2 * pos then some (h, res)
  else
    match hcur : h.get? pos, hmin : h.get? (minChild h pos) with
    | some cur, some minE =>
        if hle : cur.uses ≤ minE.uses then some (h, res)
        else
          fixLoop ((h.set pos minE).set (minChild h pos) cur)
            (setKey cur.id (minChild h pos) (setKey minE.id pos res)) (minChild h pos)
    | some _, none => none
    | none, _ => none
termination_by h.length - pos
decreasing_by
  have h1 := (@minChild_spec h pos hbig).1
  have h2 := pos_lt_minChild hbig hcur hmin hle
  simp only [List.length_set]
  omega

/-- fixLoop only rearranges the heap in place: the length is unchanged. -/
theorem fixLoop_length_aux : ∀ (n : Nat) (h : List FEntry) (res : List (String × Nat)) (pos : Nat),
    h.length - pos ≤ n → ∀ (h2 : List FEntry) (res2 : List (String × Nat)),
    fixLoop h res pos = some (h2, res2) → h2.length = h.length := by
  intro n
  induction n with
  | zero =>
      intro h res pos hn h2 res2 heq
      have hbig : h.length ≤ 2 * pos := by omega
      rw [fixLoop, dif_pos hbig] at heq
      injection heq with he
      injection he with he1 he2
      rw [← he1]
  | succ n ih =>
      intro h res pos hn h2 res2 heq
      rw [fixLoop] at heq
      split at heq
      · injection heq with he
        injection he with he1 he2
        rw [← he1]
      next hbig =>
        split at heq
        · next cur minE hcur hmin =>
            split at heq
            · injection heq with he
              injection he with he1 he2
              rw [← he1]
            · next hle =>
                have hmc := pos_lt_minChild hbig hcur hmin hle
                have hrec := ih _ _ _ ?_ _ _ heq
                · simpa using hrec
                · simp only [List.length_set]
                  omega
        · exact absurd heq (by simp)
        · exact absurd heq (by simp)

theorem fixLoop_length {h : List FEntry} {res : List (String × Nat)} {pos : Nat}
    {h2 : List FEntry} {res2 : List (String × Nat)}
    (heq : fixLoop h res pos = some (h2, res2)) : h2.length = h.length :=
  fixLoop_length_aux (h.length - pos) h res pos le_rfl h2 res2 heq

/-- lfu.Cache.add while-loop: bubble the freshly appended entry elt up
past every parent whose uses exceed 1, recording each displaced parent's
new position in the index. -/
def bubbleLoop (h : List FEntry) (res : List (String × Nat)) (elt : FEntry) (pos : Nat) :
    Option (List FEntry × List (String × Nat) × Nat) :=
  if hpos : 0 < pos then
    match h.get? (pos / 2) with
    | none => none
    | some up =>
      if up.uses > 1 then
        bubbleLoop ((h.set (pos / 2) elt).set pos up) (setKey up.id pos res) elt (pos / 2)
      else some (h, res, pos)
  else some (h, res, pos)
termination_by pos
decreasing_by exact Nat.div_lt_self hpos (by omega)

/-- lfu.Cache.add: append the new entry with uses = 1, bubble it up, and
record its final position in the residency index. -/
def addEntry (h : List FEntry) (res : List (String × Nat)) (id : String) (v : Value) :
    Option (List FEntry × List (String × Nat)) :=
  match bubbleLoop (h ++ [⟨id, v, 1⟩]) res ⟨id, v, 1⟩ h.length with
  | none => none
  | some (h2, res2, pos) => some (h2, setKey id pos res2)

/-- lfu.Cache (lfu/lfu.go): capacity and resident size counted in
entries, the uses-ordered min-heap, the id-to-heap-slot residency index,
and the eviction-callback log. -/
structure LFUCount where
  cap : Int
  size : Int
  heap : List FEntry
  res : List (String × Nat)
  evLog : List Value
deriving DecidableEq

/-- lfu.New: an empty cache with the given capacity in entries. -/
def LFUCount.new (capacity : Int) : LFUCount :=
  { cap := capacity, size := 0, heap := [], res := [], evLog := [] }

/-- lfu.Cache.evict (count flavour): notify for the heap root, delete it
from the index, move the last heap element to the root, shrink the array,
restore heap order downward, and decrement the entry count. -/
def LFUCount.evict (c : LFUCount) : Option LFUCount :=
  match c.heap.get? 0 with
  | none => none
  | some vic =>
    match c.heap.getLast? with
    | none => none
    | some lastE =>
      match fixLoop ((c.heap.set 0 lastE).take (c.heap.length - 1)) (eraseKey vic.id c.res) 0 with
      | none => none
      | some (h2, res2) =>
        some { c with heap := h2, res := res2,
                      evLog := c.evLog ++ [vic.value], size := c.size - 1 }

/-- Evicting removes exactly one slot from the heap array. -/
theorem LFUCount.evict_shrinks_heap {c c1 : LFUCount} (h : c.evict = some c1) :
    c1.heap.length + 1 = c.heap.length := by
  unfold LFUCount.evict at h
  cases h0 : c.heap.get? 0 with
  | none =>
      simp only [h0] at h
      exact Option.noConfusion h
  | some vic =>
    cases hl : c.heap.getLast? with
    | none =>
        simp only [h0, hl] at h
        exact Option.noConfusion h
    | some lastE =>
      cases hf : fixLoop ((c.heap.set 0 lastE).take (c.heap.length - 1))
          (eraseKey vic.id c.res) 0 with
      | none =>
          simp only [h0, hl, hf] at h
          exact Option.noConfusion h
      | some pr =>
        obtain ⟨h2, res2⟩ := pr
        simp only [h0, hl, hf] at h
        injection h with h
        have hlen := fixLoop_length hf
        have hne : 0 < c.heap.length := by
          cases hc : c.heap with
          | nil => rw [hc] at h0; exact Option.noConfusion h0
          | cons a t => simp
        rw [← h]
        simp only [List.length_take, List.length_set] at hlen ⊢
        omega

/-- lfu.Cache.Put (count flavour): on a fresh id, evict once if the cache
is full, then add the entry and count it; on a resident id, notify for the
old value and overwrite it in place, not counting a use. -/
def LFUCount.put (c : LFUCount) (id : String) (v : Value) : Option LFUCount :=
  if c.cap > 0 then
    match lookupKey id c.res with
    | none =>
      match (if c.size + 1 > c.cap then c.evict else some c) with
      | none => none
      | some c1 =>
        match addEntry c1.heap c1.res id v with
        | none => none
        | some (h2, res2) =>
          some { c1 with heap := h2, res := res2, size := c1.size + 1 }
    | some pos =>
      match c.heap.get? pos with
      | none => none
      | some cur =>
        some { c with heap := c.heap.set pos { cur with value := v },
                      evLog := c.evLog ++ [cur.value] }
  else some c

/-- lfu.Cache.Get (count flavour): on a hit, increment the entry's uses
counter and sift it downward; on a miss return nil. -/
def LFUCount.get (c : LFUCount) (id : String) : Option (Option Value × LFUCount) :=
  match lookupKey id c.res with
  | none => some (none, c)
  | some pos =>
    match c.heap.get? pos with
    | none => none
    | some elt =>
      match fixLoop (c.heap.set pos { elt with uses := elt.uses + 1 }) c.res pos with
      | none => none
      | some (h2, res2) =>
        some (some elt.value, { c with heap := h2, res := res2 })

/-- lfu.Cache.Reset (count flavour): evict repeatedly while size > 0. -/
def LFUCount.reset (c : LFUCount) : Option LFUCount :=
  if c.size > 0 then
    match hx : c.evict with
    | none => none
    | some c1 => c1.reset
  else some c
termination_by c.heap.length
decreasing_by
  have := LFUCount.evict_shrinks_heap hx
  omega

/-- lfu.Cache.Size with the nil-receiver guard. -/
def LFUCount.sizeAPI : Option LFUCount → Int
  | none => 0
  | some c => c.size

/-- lfu.Cache.Cap with the nil-receiver guard. -/
def LFUCount.capAPI : Option LFUCount → Int
  | none => 0
  | some c => c.cap

/-- lfu.Cache.Put with the nil-receiver guard. -/
def LFUCount.putAPI : Option LFUCount → String → Value → Option (Option LFUCount)
  | none, _, _ => some none
  | some c, id, v => (c.put id v).map some

/-- lfu.Cache.Get with the nil-receiver guard. -/
def LFUCount.getAPI : Option LFUCount → String → Option (Option Value × Option LFUCount)
  | none, _ => some (none, none)
  | some c, id => (c.get id).map fun r => (r.1, some r.2)

/-- lfu.Cache.Reset with the nil-receiver guard. -/
def LFUCount.resetAPI : Option LFUCount → Option (Option LFUCount)
  | none => some none
  | some c => c.reset.map some

/-- lfu.Cache (size-accounted flavour): capacity and resident size in
value-size units, with the same heap and residency index. -/
structure LFUSize where
  cap : Int
  size : Int
  heap : List FEntry
  res : List (String × Nat)
  evLog : List Value
deriving DecidableEq

/-- lfu.New (size-accounted flavour). -/
def LFUSize.new (capacity : Int) : LFUSize :=
  { cap := capacity, size := 0, heap := [], res := [], evLog := [] }

/-- lfu.Cache.evict (size-accounted flavour): as the count flavour but
subtracting the victim value's reported size from the resident size. -/
def LFUSize.evict (c : LFUSize) : Option LFUSize :=
  match c.heap.get? 0 with
  | none => none
  | some vic =>
    match c.heap.getLast? with
    | none => none
    | some lastE =>
      match fixLoop ((c.heap.set 0 lastE).take (c.heap.length - 1)) (eraseKey vic.id c.res) 0 with
      | none => none
      | some (h2, res2) =>
        some { c with heap := h2, res := res2,
                      evLog := c.evLog ++ [vic.value],
                      size := c.size - vic.value.size }

/-- Evicting removes exactly one slot from the heap array. -/
theorem LFUSize.evict_drops_slot {c c1 : LFUSize} (h : c.evict = some c1) :
    c1.heap.length + 1 = c.heap.length := by
  unfold LFUSize.evict at h
  cases h0 : c.heap.get? 0 with
  | none =>
      simp only [h0] at h
      exact Option.noConfusion h
  | some vic =>
    cases hl : c.heap.getLast? with
    | none =>
        simp only [h0, hl] at h
        exact Option.noConfusion h
    | some lastE =>
      cases hf : fixLoop ((c.heap.set 0 lastE).take (c.heap.length - 1))
          (eraseKey vic.id c.res) 0 with
      | none =>
          simp only [h0, hl, hf] at h
          exact Option.noConfusion h
      | some pr =>
        obtain ⟨h2, res2⟩ := pr
        simp only [h0, hl, hf] at h
        injection h with h
        have hlen := fixLoop_length hf
        have hne : 0 < c.heap.length := by
          cases hc : c.heap with
          | nil => rw [hc] at h0; exact Option.noConfusion h0
          | cons a t => simp
        rw [← h]
        simp only [List.length_take, List.length_set] at hlen ⊢
        omega

/-- The eviction loop inside the size-accounted lfu.Cache.Put: evict
while admitting the value would exceed the capacity. -/
def LFUSize.makeRoom (c : LFUSize) (vsize : Int) : Option LFUSize :=
  if c.size + vsize > c.cap then
    match hx : c.evict with
    | none => none
    | some c1 => c1.makeRoom vsize
  else some c
termination_by c.heap.length
decreasing_by
  have := LFUSize.evict_drops_slot hx
  omega

/-- lfu.Cache.Put (size-accounted flavour): panic on negative size,
silently reject a value larger than the capacity, admit a fresh id after
making room, and on a resident id notify for the old value and overwrite
it in place -- without adjusting the resident size. -/
def LFUSize.put (c : LFUSize) (id : String) (v : Value) : Option LFUSize :=
  if c.cap > 0 then
    let vsize := v.size
    if vsize < 0 then none
    else if vsize > c.cap then some c
    else
      match lookupKey id c.res with
      | none =>
        match c.makeRoom vsize with
        | none => none
        | some c1 =>
          match addEntry c1.heap c1.res id v with
          | none => none
          | some (h2, res2) =>
            some { c1 with heap := h2, res := res2, size := c1.size + vsize }
      | some pos =>
        match c.heap.get? pos with
        | none => none
        | some cur =>
          some { c with heap := c.heap.set pos { cur with value := v },
                        evLog := c.evLog ++ [cur.value] }
  else some c

/-- lfu.Cache.Get (size-accounted flavour). -/
def LFUSize.get (c : LFUSize) (id : String) : Option (Option Value × LFUSize) :=
  match lookupKey id c.res with
  | none => some (none, c)
  | some pos =>
    match c.heap.get? pos with
    | none => none
    | some elt =>
      match fixLoop (c.heap.set pos { elt with uses := elt.uses + 1 }) c.res pos with
      | none => none
      | some (h2, res2) =>
        some (some elt.value, { c with heap := h2, res := res2 })

/-- lfu.Cache.Reset (size-accounted flavour): evict while size > 0. -/
def LFUSize.reset (c : LFUSize) : Option LFUSize :=
  if c.size > 0 then
    match hx : c.evict with
    | none => none
    | some c1 => c1.reset
  else some c
termination_by c.heap.length
decreasing_by
  have := LFUSize.evict_drops_slot hx
  omega

/-- lfu.Cache.Size with the nil-receiver guard. -/
def LFUSize.sizeAPI : Option LFUSize → Int
  | none => 0
  | some c => c.size

/-- lfu.Cache.Cap with the nil-receiver guard. -/
def LFUSize.capAPI : Option LFUSize → Int
  | none => 0
  | some c => c.cap

/-- lfu.Cache.Put with the nil-receiver guard. -/
def LFUSize.putAPI : Option LFUSize → String → Value → Option (Option LFUSize)
  | none, _, _ => some none
  | some c, id, v => (c.put id v).map some

/-- lfu.Cache.Get with the nil-receiver guard. -/
def LFUSize.getAPI : Option LFUSize → String → Option (Option Value × Option LFUSize)
  | none, _ => some (none, none)
  | some c, id => (c.get id).map fun r => (r.1, some r.2)

/-- lfu.Cache.Reset with the nil-receiver guard. -/
def LFUSize.resetAPI : Option LFUSize → Option (Option LFUSize)
  | none => some none
  | some c => c.reset.map some

theorem lookupKey_isSome_iff_mem {l : List (String × α)} {k : String} :
    (lookupKey k l).isSome ↔ k ∈ keysOf l := by
  induction l with
  | nil => simp [lookupKey, keysOf]
  | cons hd tl ih =>
      by_cases hk : hd.1 = k
      · simp [lookupKey, hk, keysOf]
      · rw [lookupKey, if_neg hk]
        simp only [keysOf, List.map_cons, List.mem_cons]
        rw [ih]
        constructor
        · exact fun h => Or.inr h
        · rintro (h | h)
          · exact absurd h.symm hk
          · exact h

theorem keysOf_setKey {l : List (String × α)} {k : String} (v : α)
    (h : k ∈ keysOf l) : keysOf (setKey k v l) = keysOf l := by
  induction l with
  | nil => simp [keysOf] at h
  | cons hd tl ih =>
      by_cases hk : hd.1 = k
      · simp [setKey, hk, keysOf]
      · rw [setKey, if_neg hk]
        simp only [keysOf, List.map_cons] at h ⊢
        rcases List.mem_cons.mp h with h1 | h1
        · exact absurd h1.symm hk
        · exact congrArg (List.cons hd.1) (ih h1)

theorem lookupKey_setKey_self (l : List (String × α)) (k : String) (v : α) :
    lookupKey k (setKey k v l) = some v := by
  induction l with
  | nil => simp [setKey, lookupKey]
  | cons hd tl ih =>
      by_cases hk : hd.1 = k
      · simp [setKey, hk, lookupKey]
      · rw [setKey, if_neg hk, lookupKey, if_neg hk]
        exact ih

theorem perm_cons_eraseKey {l : List (String × α)} {k : String} {v : α}
    (h : lookupKey k l = some v) : l.Perm ((k, v) :: eraseKey k l) := by
  induction l with
  | nil => simp [lookupKey] at h
  | cons hd tl ih =>
      by_cases hk : hd.1 = k
      · rw [lookupKey, if_pos hk] at h
        injection h with h
        rw [eraseKey, if_pos hk]
        have hhd : hd = (k, v) := Prod.ext hk h
        rw [hhd]
      · rw [lookupKey, if_neg hk] at h
        rw [eraseKey, if_neg hk]
        exact ((ih h).cons hd).trans (List.Perm.swap (k, v) hd (eraseKey k tl))

theorem fixLoop_keys_aux : ∀ (n : Nat) (h : List FEntry) (res : List (String × Nat)) (pos : Nat),
    h.length - pos ≤ n → (∀ e ∈ h, e.id ∈ keysOf res) →
    ∀ (h2 : List FEntry) (res2 : List (String × Nat)),
    fixLoop h res pos = some (h2, res2) → keysOf res2 = keysOf res := by
  intro n
  induction n with
  | zero =>
      intro h res pos hn hsub h2 res2 heq
      have hbig : h.length ≤ 2 * pos := by omega
      rw [fixLoop, dif_pos hbig] at heq
      injection heq with he
      injection he with he1 he2
      rw [← he2]
  | succ n ih =>
      intro h res pos hn hsub h2 res2 heq
      rw [fixLoop] at heq
      split at heq
      · injection heq with he
        injection he with he1 he2
        rw [← he2]
      next hbig =>
        split at heq
        · next cur minE hcur hmin =>
            split at heq
            · injection heq with he
              injection he with he1 he2
              rw [← he2]
            · next hle =>
                have hmc := pos_lt_minChild hbig hcur hmin hle
                have hminK : minE.id ∈ keysOf res := hsub minE (List.get?_mem hmin)
                have hcurK : cur.id ∈ keysOf res := hsub cur (List.get?_mem hcur)
                have hkeys1 : keysOf (setKey minE.id pos res) = keysOf res :=
                  keysOf_setKey pos hminK
                have hkeys2 : keysOf (setKey cur.id (minChild h pos) (setKey minE.id pos res))
                    = keysOf (setKey minE.id pos res) :=
                  keysOf_setKey _ (by rw [hkeys1]; exact hcurK)
                have hsub2 : ∀ e ∈ (h.set pos minE).set (minChild h pos) cur,
                    e.id ∈ keysOf (setKey cur.id (minChild h pos) (setKey minE.id pos res)) := by
                  intro e he
                  rw [hkeys2, hkeys1]
                  rcases List.mem_or_eq_of_mem_set he with he1 | he1
                  · rcases List.mem_or_eq_of_mem_set he1 with he2 | he2
                    · exact hsub e he2
                    · rw [he2]
                      exact hminK
                  · rw [he1]
                    exact hcurK
                have hrec := ih _ _ _ ?_ hsub2 _ _ heq
                · rw [hrec, hkeys2, hkeys1]
                · simp only [List.length_set]
                  omega
        · exact absurd heq (by simp)
        · exact absurd heq (by simp)

theorem fixLoop_keys {h : List FEntry} {res : List (String × Nat)} {pos : Nat}
    {h2 : List FEntry} {res2 : List (String × Nat)}
    (hsub : ∀ e ∈ h, e.id ∈ keysOf res)
    (heq : fixLoop h res pos = some (h2, res2)) : keysOf res2 = keysOf res :=
  fixLoop_keys_aux (h.length - pos) h res pos le_rfl hsub h2 res2 heq

theorem bubbleLoop_spec : ∀ (pos : Nat) (h : List FEntry) (res : List (String × Nat))
    (elt : FEntry) (h2 : List FEntry) (res2 : List (String × Nat)) (p : Nat),
    bubbleLoop h res elt pos = some (h2, res2, p) →
    h.get? pos = some elt →
    (h2.get? p = some elt) ∧
    (p = 0 ∨ ∃ up, h2.get? (p / 2) = some up ∧ up.uses ≤ 1) ∧
    (∀ q e, q ≠ pos → h.get? q = some e → e.uses ≤ 1 → h2.get? q = some e) := by
  intro pos
  induction pos using Nat.strong_induction_on with
  | _ pos ih =>
      intro h res elt h2 res2 p hb helt
      rw [bubbleLoop] at hb
      split at hb
      · next hpos =>
          split at hb
          · exact absurd hb (by simp)
          · next up hup =>
              split at hb
              · next huse =>
                  have hdiv : pos / 2 < pos := Nat.div_lt_self hpos (by omega)
                  have hne : pos / 2 ≠ pos := Nat.ne_of_lt hdiv
                  have hlt2 : pos / 2 < h.length := by
                    rcases List.get?_eq_some.mp hup with ⟨hl, _⟩
                    exact hl
                  have helt2 : ((h.set (pos / 2) elt).set pos up).get? (pos / 2) = some elt := by
                    rw [List.get?_set_ne up _ (Ne.symm hne)]
                    exact List.get?_set_eq_of_lt elt hlt2
                  have hrec := ih (pos / 2) hdiv _ _ _ _ _ _ hb helt2
                  refine ⟨hrec.1, hrec.2.1, ?_⟩
                  intro q e hq hqe hquse
                  by_cases hq2 : q = pos / 2
                  · exfalso
                    rw [hq2, hup] at hqe
                    injection hqe with hqe
                    rw [hqe] at huse
                    omega
                  · refine hrec.2.2 q e hq2 ?_ hquse
                    rw [List.get?_set_ne up _ (fun hx => hq hx.symm),
                        List.get?_set_ne elt _ (fun hx => hq2 hx.symm)]
                    exact hqe
              · next huse =>
                  injection hb with hb
                  injection hb with hb1 hbr
                  injection hbr with hb2 hb3
                  subst hb1
                  subst hb2
                  subst hb3
                  refine ⟨helt, Or.inr ⟨up, hup, by omega⟩, ?_⟩
                  intro q e hq hqe hquse
                  exact hqe
      · next hpos =>
          injection hb with hb
          injection hb with hb1 hbr
          injection hbr with hb2 hb3
          subst hb1
          subst hb2
          subst hb3
          refine ⟨helt, Or.inl (by omega), ?_⟩
          intro q e hq hqe hquse
          exact hqe

unseal fixLoop bubbleLoop LFUSize.makeRoom LFUSize.reset in
/-- Claim C1: for every cache (LRU or LFU) with non-negative capacity and
every operation sequence, 0 ≤ Size() ≤ Cap() between operations.  The
size-accounted LFU engine violates the lower bound: replacing a resident
value with a larger one does not adjust the accounting, so after
New(10); Put(x, size 1); Put(x, size 10); Reset the resident accounting
is -9 even though the cache is empty. -/
theorem C1_capacity_invariant_code_bug :
    ((((LFUSize.new 10).put "x" (VStr "q")).bind (fun c => c.put "x" (VStr "AAAAAAAAAA"))).bind
        (fun c => c.reset)).map (fun c => (c.size, c.heap.length, keysOf c.res))
      = some (-9, 0, []) := by decide

unseal fixLoop bubbleLoop LRU.makeRoom in
/-- Claim C2: on an LRU cache of capacity 16 in byte units, after
Put(x,"abc"), Put(y,"defghij"), Get(x) (a hit), Put(z,"123456"),
Put(x,"ABC") (replacement), the resident size is 16 and x, y, z are all
still resident (no entry has been evicted); a further Put(e,"qqq")
evicts exactly y -- the single new eviction notification carries y's
value -- and leaves resident size 12 with e, x, z resident. -/
theorem C2_lru_admission_order :
    ((((LRU.new 16).put "x" (VStr "abc")).bind (fun c => c.put "y" (VStr "defghij"))).map
        (fun c => (c.get "x").1)) = some (some (VStr "abc")) ∧
    (((((LRU.new 16).put "x" (VStr "abc")).bind (fun c => c.put "y" (VStr "defghij"))).map
        (fun c => (c.get "x").2)).bind (fun c => c.put "z" (VStr "123456"))).bind
        (fun c => c.put "x" (VStr "ABC"))
      = some { cap := 16, size := 16,
               ring := [("x", VStr "ABC"), ("z", VStr "123456"), ("y", VStr "defghij")],
               evLog := [VStr "abc"] } ∧
    ({ cap := 16, size := 16,
       ring := [("x", VStr "ABC"), ("z", VStr "123456"), ("y", VStr "defghij")],
       evLog := [VStr "abc"] } : LRU).put "e" (VStr "qqq")
      = some { cap := 16, size := 12,
               ring := [("e", VStr "qqq"), ("x", VStr "ABC"), ("z", VStr "123456")],
               evLog := [VStr "abc", VStr "defghij"] } := by
  refine ⟨by decide, by decide, by decide⟩

unseal fixLoop bubbleLoop in
/-- Claim C3 counterexample: after the literal sequence Put(x), Put(y),
Get(x), Put(z), Put(x, new value) on a capacity-3 LFU cache, the next
admission Put(e) does NOT evict z: z is still resident, the victim is y
(the eviction notification carries y's value). -/
theorem C3_counterexample :
    (((((((LFUCount.new 3).put "x" (VStr "abc")).bind (fun c => c.put "y" (VStr "defghij"))).bind
        (fun c => (c.get "x").map Prod.snd)).bind (fun c => c.put "z" (VStr "123456"))).bind
        (fun c => c.put "x" (VStr "ABC"))).bind
        (fun c5 => (c5.put "e" (VStr "qqq")).map (fun c6 =>
          ((lookupKey "z" c6.res).isSome, (lookupKey "y" c6.res).isSome, c6.evLog))))
      = some (true, false, [VStr "abc", VStr "defghij"]) := by decide

unseal fixLoop bubbleLoop in
/-- Claim C3 amended: on a capacity-3 LFU cache, after Put(x), Put(y),
Get(x), Put(z), Put(x, new value), the replacement leaves x's use counter
at 2 (neither reset nor incremented); the next admission Put(e) evicts y
and the subsequent Put(m) evicts z, the heap-order tie-break among the
uses=1 entries determining the victims while x (uses 2) survives. -/
theorem C3_amended_lfu_admission :
    (((((LFUCount.new 3).put "x" (VStr "abc")).bind (fun c => c.put "y" (VStr "defghij"))).bind
        (fun c => (c.get "x").map Prod.snd)).bind (fun c => c.put "z" (VStr "123456"))).bind
        (fun c => c.put "x" (VStr "ABC"))
      = some { cap := 3, size := 3,
               heap := [⟨"y", VStr "defghij", 1⟩, ⟨"z", VStr "123456", 1⟩, ⟨"x", VStr "ABC", 2⟩],
               res := [("x", 2), ("y", 0), ("z", 1)], evLog := [VStr "abc"] } ∧
    ({ cap := 3, size := 3,
       heap := [⟨"y", VStr "defghij", 1⟩, ⟨"z", VStr "123456", 1⟩, ⟨"x", VStr "ABC", 2⟩],
       res := [("x", 2), ("y", 0), ("z", 1)], evLog := [VStr "abc"] } : LFUCount).put "e" (VStr "qqq")
      = some { cap := 3, size := 3,
               heap := [⟨"z", VStr "123456", 1⟩, ⟨"e", VStr "qqq", 1⟩, ⟨"x", VStr "ABC", 2⟩],
               res := [("x", 2), ("z", 0), ("e", 1)],
               evLog := [VStr "abc", VStr "defghij"] } ∧
    ({ cap := 3, size := 3,
       heap := [⟨"z", VStr "123456", 1⟩, ⟨"e", VStr "qqq", 1⟩, ⟨"x", VStr "ABC", 2⟩],
       res := [("x", 2), ("z", 0), ("e", 1)],
       evLog := [VStr "abc", VStr "defghij"] } : LFUCount).put "m" (VStr "123456789")
      = some { cap := 3, size := 3,
               heap := [⟨"e", VStr "qqq", 1⟩, ⟨"m", VStr "123456789", 1⟩, ⟨"x", VStr "ABC", 2⟩],
               res := [("x", 2), ("e", 0), ("m", 1)],
               evLog := [VStr "abc", VStr "defghij", VStr "123456"] } := by
  refine ⟨by decide, by decide, by decide⟩

unseal fixLoop bubbleLoop LFUSize.makeRoom in
/-- Claim C4: replacing a resident key fires the eviction notification
exactly once with the old value and keeps the accounting equal to the sum
of resident sizes.  The size-accounted LFU engine breaks the accounting
half: after New(10); Put(x, size 3); Put(x, size 5) the notification did
fire exactly once with the old value, but Size() is still 3 while the
only resident value has size 5. -/
theorem C4_replacement_accounting_code_bug :
    (((LFUSize.new 10).put "x" (VStr "abc")).bind (fun c1 =>
        (c1.put "x" (VStr "ABCDE")).map (fun c2 =>
          (c2.evLog, c2.size, c2.heap.map (fun e => e.value.size), keysOf c2.res))))
      = some ([VStr "abc"], 3, [5], ["x"]) := by decide

unseal fixLoop bubbleLoop LRU.makeRoom in
/-- Claim C5: Drop(id) on an LRU cache should return the resident value.
The code performs the full eviction bookkeeping (notification with the
old value, index and ring removal, size adjustment) but evict overwrites
the entry's value field with Drop's nil argument before Drop reads it, so
Drop returns nil even though "x" was resident with value "abc". -/
theorem C5_drop_returns_nil_code_bug :
    (((LRU.new 16).put "x" (VStr "abc")).map (fun c =>
        ((lookupKey "x" c.ring).map Value.data, (c.drop "x").1,
         keysOf (c.drop "x").2.ring, (c.drop "x").2.size, (c.drop "x").2.evLog)))
      = some (some "abc", none, [], 0, [VStr "abc"]) := by decide

/-- Claim C6: a Put of a value whose size exceeds the capacity of a
positive-capacity size-accounted cache (LRU or size-accounted LFU) is a
complete no-op: the state, including residency, ordering, accounting and
the eviction log, is returned unchanged and no panic occurs. -/
theorem C6_oversized_put_noop (c : LRU) (d : LFUSize) (id : String) (v w : Value)
    (hc : 0 < c.cap) (hv : c.cap < v.size) (hd : 0 < d.cap) (hw : d.cap < w.size) :
    c.put id v = some c ∧ d.put id w = some d := by
  constructor
  · simp only [LRU.put]
    rw [if_pos hc, if_neg (show ¬ v.size < 0 by omega), if_pos hv]
  · simp only [LFUSize.put]
    rw [if_pos hd, if_neg (show ¬ w.size < 0 by omega), if_pos hw]

/-- Witness for C6 at concrete inputs: capacity 5, value size 6. -/
theorem C6_oversized_put_noop_witness :
    (LRU.new 5).put "k" (VStr "123456") = some (LRU.new 5) ∧
    (LFUSize.new 5).put "k" (VStr "123456") = some (LFUSize.new 5) :=
  C6_oversized_put_noop (LRU.new 5) (LFUSize.new 5) "k" (VStr "123456") (VStr "123456")
    (by decide) (by decide) (by decide) (by decide)

unseal fixLoop bubbleLoop LFUSize.makeRoom in
/-- Claim C7: Put on a size-accounted cache with positive capacity should
panic exactly when the value reports a negative size.  On the
size-accounted LFU engine a replacement that shrinks a resident value
leaves the accounting too high, and a later Put with only non-negative
sizes (11, 1, 11 here, capacity 11) drives the eviction loop into an
empty heap, i.e. a panic without any negative size. -/
theorem C7_put_panic_code_bug :
    (VStr "AAAAAAAAAAA").size = 11 ∧ (VStr "A").size = 1 ∧ (VStr "BBBBBBBBBBB").size = 11 ∧
    ((((LFUSize.new 11).put "a" (VStr "AAAAAAAAAAA")).bind (fun c => c.put "a" (VStr "A"))).bind
        (fun c => c.put "b" (VStr "BBBBBBBBBBB")))
      = none := by decide

unseal LFUCount.reset LFUSize.reset in
/-- Claim C8: a nil cache, and one constructed with capacity 0, behave as
permanently empty always-miss caches for all three engines: Put stores
nothing and leaves the state unchanged, Get misses, Size and Cap report
0, Reset is a no-op, and no operation fails. -/
theorem C8_zero_capacity_behavior (id : String) (v : Value) :
    (LRU.putAPI none id v = some none ∧ LRU.getAPI none id = (none, none) ∧
     LRU.sizeAPI none = 0 ∧ LRU.capAPI none = 0 ∧ LRU.resetAPI none = none ∧
     LRU.putAPI (some (LRU.new 0)) id v = some (some (LRU.new 0)) ∧
     LRU.getAPI (some (LRU.new 0)) id = (none, some (LRU.new 0)) ∧
     LRU.sizeAPI (some (LRU.new 0)) = 0 ∧ LRU.capAPI (some (LRU.new 0)) = 0 ∧
     LRU.resetAPI (some (LRU.new 0)) = some (LRU.new 0)) ∧
    (LFUCount.putAPI none id v = some none ∧ LFUCount.getAPI none id = some (none, none) ∧
     LFUCount.sizeAPI none = 0 ∧ LFUCount.capAPI none = 0 ∧ LFUCount.resetAPI none = some none ∧
     LFUCount.putAPI (some (LFUCount.new 0)) id v = some (some (LFUCount.new 0)) ∧
     LFUCount.getAPI (some (LFUCount.new 0)) id = some (none, some (LFUCount.new 0)) ∧
     LFUCount.sizeAPI (some (LFUCount.new 0)) = 0 ∧ LFUCount.capAPI (some (LFUCount.new 0)) = 0 ∧
     LFUCount.resetAPI (some (LFUCount.new 0)) = some (some (LFUCount.new 0))) ∧
    (LFUSize.putAPI none id v = some none ∧ LFUSize.getAPI none id = some (none, none) ∧
     LFUSize.sizeAPI none = 0 ∧ LFUSize.capAPI none = 0 ∧ LFUSize.resetAPI none = some none ∧
     LFUSize.putAPI (some (LFUSize.new 0)) id v = some (some (LFUSize.new 0)) ∧
     LFUSize.getAPI (some (LFUSize.new 0)) id = some (none, some (LFUSize.new 0)) ∧
     LFUSize.sizeAPI (some (LFUSize.new 0)) = 0 ∧ LFUSize.capAPI (some (LFUSize.new 0)) = 0 ∧
     LFUSize.resetAPI (some (LFUSize.new 0)) = some (some (LFUSize.new 0))) :=
  ⟨⟨rfl, rfl, rfl, rfl, rfl, rfl, rfl, rfl, rfl, rfl⟩,
   ⟨rfl, rfl, rfl, rfl, rfl, rfl, rfl, rfl, rfl, rfl⟩,
   ⟨rfl, rfl, rfl, rfl, rfl, rfl, rfl, rfl, rfl, rfl⟩⟩

unseal fixLoop bubbleLoop in
/-- Claim C9 counterexample: inserting the absent key b into a reachable
LFU cache (New(3); Put(a); Get(a)) moves the resident entry a -- whose
uses counter is 2, greater than 1 -- from heap slot 0 to heap slot 1,
refuting the claim that entries with uses greater than 1 are never moved
by a plain insertion. -/
theorem C9_counterexample :
    ((((LFUCount.new 3).put "a" (VStr "A")).bind (fun c => (c.get "a").map Prod.snd)).bind
        (fun c => (c.put "b" (VStr "B")).map (fun c2 =>
          (lookupKey "a" c.res, (c.heap.get? 0).map FEntry.uses, lookupKey "a" c2.res))))
      = some (some 0, some 2, some 1) := by decide

/-- Claim C9 amended: lfu.Cache.add places the fresh uses=1 entry at a
position whose parent (if any) has uses at most 1, bubbling it past every
chain of uses-greater-than-1 ancestors, and never changes the heap
position of any pre-existing entry whose uses counter is at most 1; the
displaced uses-greater-than-1 ancestors each move down one slot. -/
theorem C9_amended_bubble_up (h : List FEntry) (res : List (String × Nat)) (id : String)
    (v : Value) (h2 : List FEntry) (res2 : List (String × Nat))
    (hadd : addEntry h res id v = some (h2, res2)) :
    (∃ p, lookupKey id res2 = some p ∧ h2.get? p = some ⟨id, v, 1⟩ ∧
        (p = 0 ∨ ∃ up, h2.get? (p / 2) = some up ∧ up.uses ≤ 1)) ∧
    (∀ q e, h.get? q = some e → e.uses ≤ 1 → h2.get? q = some e) := by
  unfold addEntry at hadd
  cases hb : bubbleLoop (h ++ [⟨id, v, 1⟩]) res ⟨id, v, 1⟩ h.length with
  | none =>
      simp only [hb] at hadd
      exact Option.noConfusion hadd
  | some tr =>
      obtain ⟨h2x, tr2⟩ := tr
      obtain ⟨res2x, p⟩ := tr2
      simp only [hb] at hadd
      injection hadd with he
      injection he with he1 he2
      have hinit : (h ++ [(⟨id, v, 1⟩ : FEntry)]).get? h.length = some ⟨id, v, 1⟩ :=
        List.get?_concat_length h _
      have hspec := bubbleLoop_spec h.length _ _ _ _ _ _ hb hinit
      constructor
      · refine ⟨p, ?_, ?_, ?_⟩
        · rw [← he2]
          exact lookupKey_setKey_self res2x id p
        · rw [← he1]
          exact hspec.1
        · rw [← he1]
          exact hspec.2.1
      · intro q e hqe hu
        have hlt : q < h.length := by
          rcases List.get?_eq_some.mp hqe with ⟨hl, _⟩
          exact hl
        have happ : (h ++ [(⟨id, v, 1⟩ : FEntry)]).get? q = some e := by
          rw [List.get?_append hlt]
          exact hqe
        rw [← he1]
        exact hspec.2.2 q e (by omega) happ hu

unseal bubbleLoop in
/-- Witness for the amended C9 at a concrete input: inserting b into the
one-entry heap holding a with uses 2. -/
theorem C9_amended_bubble_up_witness :
    (∃ p, lookupKey "b" [("a", 1), ("b", 0)] = some p ∧
        [(⟨"b", VStr "B", 1⟩ : FEntry), ⟨"a", VStr "A", 2⟩].get? p = some ⟨"b", VStr "B", 1⟩ ∧
        (p = 0 ∨ ∃ up, [(⟨"b", VStr "B", 1⟩ : FEntry), ⟨"a", VStr "A", 2⟩].get? (p / 2) = some up ∧
          up.uses ≤ 1)) ∧
    (∀ q e, [(⟨"a", VStr "A", 2⟩ : FEntry)].get? q = some e → e.uses ≤ 1 →
        [(⟨"b", VStr "B", 1⟩ : FEntry), ⟨"a", VStr "A", 2⟩].get? q = some e) :=
  C9_amended_bubble_up ([⟨"a", VStr "A", 2⟩] : List FEntry) ([("a", 0)] : List (String × Nat))
    "b" (VStr "B") ([⟨"b", VStr "B", 1⟩, ⟨"a", VStr "A", 2⟩] : List FEntry)
    ([("a", 1), ("b", 0)] : List (String × Nat)) (by decide)

/-- Claim C10: for both engines and every id, a completed Get leaves the
resident-key set and the accounting untouched: on the LRU engine the ring
is merely permuted and the size field unchanged; on both LFU engines
(given the structural invariant that every heap entry is indexed) the
residency-index keys and the size field are unchanged. -/
theorem C10_get_frame (id : String) :
    (∀ c : LRU, ((c.get id).2).size = c.size ∧ ((c.get id).2).ring.Perm c.ring) ∧
    (∀ (c : LFUCount) (r : Option Value) (c2 : LFUCount),
        (∀ e ∈ c.heap, e.id ∈ keysOf c.res) → c.get id = some (r, c2) →
        c2.size = c.size ∧ keysOf c2.res = keysOf c.res) ∧
    (∀ (c : LFUSize) (r : Option Value) (c2 : LFUSize),
        (∀ e ∈ c.heap, e.id ∈ keysOf c.res) → c.get id = some (r, c2) →
        c2.size = c.size ∧ keysOf c2.res = keysOf c.res) := by
  refine ⟨?_, ?_, ?_⟩
  · intro c
    cases hl : lookupKey id c.ring with
    | none =>
        simp only [LRU.get, hl]
        exact ⟨trivial, List.Perm.refl _⟩
    | some v =>
        simp only [LRU.get, hl]
        by_cases hh : c.ring.head?.map Prod.fst = some id
        · rw [if_pos hh]
          exact ⟨rfl, List.Perm.refl _⟩
        · rw [if_neg hh]
          exact ⟨rfl, (perm_cons_eraseKey hl).symm⟩
  · intro c r c2 hsub hget
    rw [LFUCount.get] at hget
    cases hl : lookupKey id c.res with
    | none =>
        simp only [hl] at hget
        injection hget with hget
        injection hget with hg1 hg2
        rw [← hg2]
        exact ⟨rfl, rfl⟩
    | some pos =>
        cases hp : c.heap.get? pos with
        | none =>
            simp only [hl, hp] at hget
            exact Option.noConfusion hget
        | some elt =>
            cases hf : fixLoop (c.heap.set pos { elt with uses := elt.uses + 1 }) c.res pos with
            | none =>
                simp only [hl, hp, hf] at hget
                exact Option.noConfusion hget
            | some pr =>
                obtain ⟨hh2, hres2⟩ := pr
                simp only [hl, hp, hf] at hget
                injection hget with hget
                injection hget with hg1 hg2
                rw [← hg2]
                refine ⟨rfl, ?_⟩
                refine fixLoop_keys ?_ hf
                intro e he
                rcases List.mem_or_eq_of_mem_set he with he1 | he1
                · exact hsub e he1
                · rw [he1]
                  exact hsub elt (List.get?_mem hp)
  · intro c r c2 hsub hget
    rw [LFUSize.get] at hget
    cases hl : lookupKey id c.res with
    | none =>
        simp only [hl] at hget
        injection hget with hget
        injection hget with hg1 hg2
        rw [← hg2]
        exact ⟨rfl, rfl⟩
    | some pos =>
        cases hp : c.heap.get? pos with
        | none =>
            simp only [hl, hp] at hget
            exact Option.noConfusion hget
        | some elt =>
            cases hf : fixLoop (c.heap.set pos { elt with uses := elt.uses + 1 }) c.res pos with
            | none =>
                simp only [hl, hp, hf] at hget
                exact Option.noConfusion hget
            | some pr =>
                obtain ⟨hh2, hres2⟩ := pr
                simp only [hl, hp, hf] at hget
                injection hget with hget
                injection hget with hg1 hg2
                rw [← hg2]
                refine ⟨rfl, ?_⟩
                refine fixLoop_keys ?_ hf
                intro e he
                rcases List.mem_or_eq_of_mem_set he with he1 | he1
                · exact hsub e he1
                · rw [he1]
                  exact hsub elt (List.get?_mem hp)

unseal fixLoop in
/-- Witness for C10 at concrete inputs: a two-entry count-based LFU heap
and a two-entry size-accounted LFU heap, both hit on key a. -/
theorem C10_get_frame_witness :
    ((∀ e ∈ (LFUCount.mk 3 2 [⟨"a", VStr "A", 2⟩, ⟨"b", VStr "B", 1⟩]
        [("a", 0), ("b", 1)] []).heap,
        e.id ∈ keysOf (LFUCount.mk 3 2 [⟨"a", VStr "A", 2⟩, ⟨"b", VStr "B", 1⟩]
          [("a", 0), ("b", 1)] []).res) ∧
      ((LFUCount.mk 3 2 [⟨"b", VStr "B", 1⟩, ⟨"a", VStr "A", 3⟩] [("a", 1), ("b", 0)] []).size
          = (LFUCount.mk 3 2 [⟨"a", VStr "A", 2⟩, ⟨"b", VStr "B", 1⟩]
              [("a", 0), ("b", 1)] []).size ∧
        keysOf (LFUCount.mk 3 2 [⟨"b", VStr "B", 1⟩, ⟨"a", VStr "A", 3⟩]
            [("a", 1), ("b", 0)] []).res
          = keysOf (LFUCount.mk 3 2 [⟨"a", VStr "A", 2⟩, ⟨"b", VStr "B", 1⟩]
              [("a", 0), ("b", 1)] []).res)) ∧
    ((∀ e ∈ (LFUSize.mk 30 3 [⟨"a", VStr "abc", 2⟩, ⟨"b", VStr "de", 1⟩]
        [("a", 0), ("b", 1)] []).heap,
        e.id ∈ keysOf (LFUSize.mk 30 3 [⟨"a", VStr "abc", 2⟩, ⟨"b", VStr "de", 1⟩]
          [("a", 0), ("b", 1)] []).res) ∧
      ((LFUSize.mk 30 3 [⟨"b", VStr "de", 1⟩, ⟨"a", VStr "abc", 3⟩] [("a", 1), ("b", 0)] []).size
          = (LFUSize.mk 30 3 [⟨"a", VStr "abc", 2⟩, ⟨"b", VStr "de", 1⟩]
              [("a", 0), ("b", 1)] []).size ∧
        keysOf (LFUSize.mk 30 3 [⟨"b", VStr "de", 1⟩, ⟨"a", VStr "abc", 3⟩]
            [("a", 1), ("b", 0)] []).res
          = keysOf (LFUSize.mk 30 3 [⟨"a", VStr "abc", 2⟩, ⟨"b", VStr "de", 1⟩]
              [("a", 0), ("b", 1)] []).res)) := by
  constructor
  · constructor
    · decide
    · exact (C10_get_frame "a").2.1
        (LFUCount.mk 3 2 [⟨"a", VStr "A", 2⟩, ⟨"b", VStr "B", 1⟩] [("a", 0), ("b", 1)] [])
        (some (VStr "A"))
        (LFUCount.mk 3 2 [⟨"b", VStr "B", 1⟩, ⟨"a", VStr "A", 3⟩] [("a", 1), ("b", 0)] [])
        (by decide) (by decide)
  · constructor
    · decide
    · exact (C10_get_frame "a").2.2
        (LFUSize.mk 30 3 [⟨"a", VStr "abc", 2⟩, ⟨"b", VStr "de", 1⟩] [("a", 0), ("b", 1)] [])
        (some (VStr "abc"))
        (LFUSize.mk 30 3 [⟨"b", VStr "de", 1⟩, ⟨"a", VStr "abc", 3⟩] [("a", 1), ("b", 0)] [])
        (by decide) (by decide)

end CacheSpec
